import Mathlib

/-!
Verification of MPlib core components against their natural-language
specification, via a shallow embedding of the C++ sources.

Scalar values (C++ `float`/`double` template parameter `S`) are embedded as
`Int`: none of the verified code paths perform arithmetic on configuration
values, they only move them between containers, so any inhabited type with a
linear order (needed for distance minima) is faithful.

Embedded units:
* `ArticulatedModelTpl` from `articulated_model.cpp`
  (`setQpos`, `setMoveGroup`);
* `KDLModelTpl` from `kdl_model.cpp`
  (`chainIKLMA`, `chainIKNR`, `chainIKNRJL`, `TreeIKNRJL`);
* `ValidityCheckerTpl` from the OMPL planner header (`isValid`, `clearance`);
* `PlanningWorldTpl` — its header is not part of the sources at hand, so its
  collide/distance queries are modelled from the spec (see the doc comment on
  `PlanningWorld`).

External collaborators (pinocchio forward kinematics, KDL solvers, FCL
pairwise collision/distance) are abstracted as function parameters, exactly
at the call boundary the C++ code uses them.
-/

namespace MPlib

/-! ## ArticulatedModel (articulated_model.cpp) -/

/-- Inner loop of `ArticulatedModelTpl::setQpos` (full = false):
`for (size_t j = 0; j < dim_i; j++) current_qpos_[start_idx + j] = qpos[len++]`.
Writes `d` consecutive entries of `q` (starting at position `len`) into `cur`
beginning at index `start`. -/
def writeBlock : Nat → List Int → Nat → Nat → List Int → List Int
  | _, _, _, 0, cur => cur
  | start, q, len, Nat.succ d, cur =>
      writeBlock (start + 1) q (len + 1) d (cur.set start (q.getD len 0))

/-- Outer loop of `ArticulatedModelTpl::setQpos` (full = false):
`for (auto i : move_group_user_joints_) { ... }` with `start_idx =
getJointId(i)` and `dim_i = getJointDim(i)`.  `jid` and `jdim` abstract the
pinocchio model's per-joint configuration offset and per-joint DOF. -/
def scatterQpos (jid jdim : Nat → Nat) : List Nat → List Int → Nat → List Int → List Int
  | [], _, _, cur => cur
  | i :: rest, q, len, cur =>
      scatterQpos jid jdim rest q (len + jdim i) (writeBlock (jid i) q len (jdim i) cur)

/-- State of `ArticulatedModelTpl<S>`: the fields touched by `setQpos` and
`setMoveGroup`.  `jointId`/`jointDim` abstract
`pinocchio_model_->getJointId` / `getJointDim`; `linkPoses` abstracts the FCL
collision-object poses pushed by `updateCollisionObjects`. -/
structure ArticulatedModel where
  jointId : Nat → Nat
  jointDim : Nat → Nat
  moveGroupUserJoints : List Nat
  qposDim : Nat
  currentQpos : List Int
  linkPoses : List Int

/-- The message built by the `ASSERT` in `setQpos`:
`"Length is not correct, Dim of Q: " + std::to_string(qpos_dim_) + " ,Len of
qpos: " + std::to_string(qpos.size())`. -/
def lengthError (dim len : Nat) : String :=
  "Length is not correct, Dim of Q: " ++ toString dim ++ " ,Len of qpos: " ++ toString len

/-- `ArticulatedModelTpl::setQpos(qpos, full)`.  `fk` abstracts the external
kinematics collaborator: `computeForwardKinematics` followed by reading every
link pose and `fcl_model_->updateCollisionObjects`, i.e. the derived link-pose
data as a function of the full configuration.  The first component is the
raised error, if any (`ASSERT` throws `std::runtime_error`); the second is the
object state when the call returns or the exception leaves the method — the
`ASSERT` fires before any mutation, so on failure the state is returned
untouched. -/
def ArticulatedModel.setQpos (fk : List Int → List Int) (m : ArticulatedModel)
    (qpos : List Int) (full : Bool) : Option String × ArticulatedModel :=
  if full then
    let m1 := { m with currentQpos := qpos }
    (none, { m1 with linkPoses := fk m1.currentQpos })
  else
    if qpos.length = m.qposDim then
      let scattered := scatterQpos m.jointId m.jointDim m.moveGroupUserJoints qpos 0 m.currentQpos
      let m1 := { m with currentQpos := scattered }
      (none, { m1 with linkPoses := fk m1.currentQpos })
    else
      (some (lengthError m.qposDim qpos.length), m)

/-- `std::unique` on the tail of a list, given the last kept element `prev`:
drops each element equal to the previously kept one. -/
def uniqueTail (prev : Nat) : List Nat → List Nat
  | [] => []
  | b :: rest => if prev = b then uniqueTail prev rest else b :: uniqueTail b rest

/-- `std::unique` over a whole list (the first element is always kept), as
used in `setMoveGroup` after `std::sort`. -/
def uniqueAdjacent : List Nat → List Nat
  | [] => []
  | a :: rest => a :: uniqueTail a rest

/-- `ArticulatedModelTpl::setMoveGroup(end_effectors)`: prepend each
end-effector's chain joint indices (`pinocchio_model_->getChainJointIndex`,
abstracted as `chainJointIndex`), `std::sort`, `std::unique` + `erase`, then
recompute `qpos_dim_` as the sum of per-joint DOF over the resulting list. -/
def ArticulatedModel.setMoveGroup (chainJointIndex : String → List Nat)
    (m : ArticulatedModel) (endEffectors : List String) : ArticulatedModel :=
  let raw := endEffectors.foldl (fun acc e => chainJointIndex e ++ acc) []
  let mg := uniqueAdjacent (raw.insertionSort (fun a b => a ≤ b))
  { m with moveGroupUserJoints := mg, qposDim := (mg.map m.jointDim).sum }

/-! ## KDLModel (kdl_model.cpp) -/

/-- One segment of a KDL chain: the name of its joint and whether that joint
is `KDL::Joint::Fixed`. -/
structure Segment where
  jointName : String
  fixedJoint : Bool

/-- State of `KDLModelTpl<S>`: the fields the IK methods read.  `treeChain`
abstracts `tree_.getChain(tree_root_name_, link_name, chain)` — the segment
list of the kinematic path from the tree root to the given link.  `kdl2user`
is `joint_mapping_kdl_2_user_`. -/
structure KDLModel where
  userLinkNames : List String
  userJointIdxMapping : String → Nat
  treeChain : String → List Segment
  kdl2user : List Nat

/-- The `idx` vector each chain IK method builds: user joint indices of the
non-fixed joints along the chain, in chain order. -/
def chainJointIdx (m : KDLModel) (link : String) : List Nat :=
  (m.treeChain link).filterMap fun seg =>
    if seg.fixedJoint then none else some (m.userJointIdxMapping seg.jointName)

/-- `for (int i = 0; i < n; i++) q_init(i) = q0[idx[i]]`: read the entries of
`q0` at the positions in `idx`, in order. -/
def readAt (q0 : List Int) (idx : List Nat) : List Int :=
  idx.map fun k => q0.getD k 0

/-- `VectorX<S> q1 = q0; for (int i = 0; i < n; i++) q1[idx[i]] = q_sol(i)`:
copy the seed and overwrite the positions in `idx` with the solver output, in
order. -/
def overwriteAt : List Int → List Nat → List Int → List Int
  | q, [], _ => q
  | q, _ :: _, [] => q
  | q, k :: ks, s :: ss => overwriteAt (q.set k s) ks ss

/-- `KDLModelTpl::chainIKLMA`.  `solver` abstracts
`KDL::ChainIkSolverPos_LMA(chain, L).CartToJnt(q_init, frame_goal, q_sol)`:
given the packed seed and the goal pose it returns the solution array and the
solver's status code.  The `ASSERT` on the link index throws
`"link index out of bound"` before anything else happens. -/
def KDLModel.chainIKLMA (m : KDLModel) (solver : List Int → List Int → List Int × Int)
    (index : Nat) (q0 pose : List Int) : Except String (List Int × Int) :=
  if index < m.userLinkNames.length then
    let idx := chainJointIdx m (m.userLinkNames.getD index "")
    let res := solver (readAt q0 idx) pose
    Except.ok (overwriteAt q0 idx res.1, res.2)
  else Except.error "link index out of bound"

/-- `KDLModelTpl::chainIKNR`; `solver` abstracts
`KDL::ChainIkSolverPos_NR(chain, fkpossolver, ikvelsolver).CartToJnt`. -/
def KDLModel.chainIKNR (m : KDLModel) (solver : List Int → List Int → List Int × Int)
    (index : Nat) (q0 pose : List Int) : Except String (List Int × Int) :=
  if index < m.userLinkNames.length then
    let idx := chainJointIdx m (m.userLinkNames.getD index "")
    let res := solver (readAt q0 idx) pose
    Except.ok (overwriteAt q0 idx res.1, res.2)
  else Except.error "link index out of bound"

/-- `KDLModelTpl::chainIKNRJL`; `solver` abstracts
`KDL::ChainIkSolverPos_NR_JL(chain, q_min, q_max, fkpossolver, ikvelsolver)
.CartToJnt`, applied to the packed joint limits, packed seed, and goal. -/
def KDLModel.chainIKNRJL (m : KDLModel)
    (solver : List Int → List Int → List Int → List Int → List Int × Int)
    (index : Nat) (q0 pose qmin qmax : List Int) : Except String (List Int × Int) :=
  if index < m.userLinkNames.length then
    let idx := chainJointIdx m (m.userLinkNames.getD index "")
    let res := solver (readAt qmin idx) (readAt qmax idx) (readAt q0 idx) pose
    Except.ok (overwriteAt q0 idx res.1, res.2)
  else Except.error "link index out of bound"

/-- `KDLModelTpl::TreeIKNRJL`; `solver` abstracts
`KDL::TreeIkSolverPos_NR_JL(tree_, endpoints, q_min, q_max, fkpossolver,
ikvelsolver, 1000, 1e-6).CartToJnt(q_init, frames, q_sol)`; the endpoint →
goal-frame map is the zip of `endpoints` and `poses`.  Packing and unpacking
go through `joint_mapping_kdl_2_user_`. -/
def KDLModel.TreeIKNRJL (m : KDLModel)
    (solver : List Int → List Int → List Int → List (String × List Int) → List Int × Int)
    (endpoints : List String) (q0 : List Int) (poses : List (List Int))
    (qmin qmax : List Int) : List Int × Int :=
  let frames := endpoints.zip poses
  let res := solver (readAt qmin m.kdl2user) (readAt qmax m.kdl2user)
    (readAt q0 m.kdl2user) frames
  (overwriteAt q0 m.kdl2user res.1, res.2)

/-! ## PlanningWorld and ValidityChecker -/

/-- Modelled from the spec: `planning_world.h` is not among the sources at
hand (only its pybind bindings and callers are), so the Planning World is
modelled from the spec's words.  The planned articulations' configurations
are a single state vector written wholesale by `setQposAll`; the scene
determines a set of self-scope collision pairs (links of planned
articulations, filtered by the allowed-collision matrix, plus
planned-vs-attached checks) and a set of with-others-scope pairs (planned
articulations and attachments vs. everything fixed), here abstract pair ids;
`pairCollides` / `pairDistance` abstract the FCL collaborator's per-pair
boolean collision and signed-distance answers as functions of the state.
Per the spec, the full scope is the union self ∪ with-others, the boolean
`collide` reports whether any pair in scope collides, and every
distance-scope query returns the minimum signed distance over the pairs in
its scope. -/
structure PlanningWorld where
  state : List Int
  selfPairs : List Nat
  othersPairs : List Nat
  pairCollides : List Int → Nat → Bool
  pairDistance : List Int → Nat → Int

/-- Modelled from the spec: `set_qpos_all` writes the concatenated
planned-articulation configuration into the world. -/
def PlanningWorld.setQposAll (w : PlanningWorld) (state : List Int) : PlanningWorld :=
  { w with state := state }

/-- The pairs of the full scope: self ∪ with-others. -/
def PlanningWorld.fullPairs (w : PlanningWorld) : List Nat :=
  w.selfPairs ++ w.othersPairs

/-- Modelled from the spec: the boolean full-scope collision query. -/
def PlanningWorld.collide (w : PlanningWorld) : Bool :=
  (w.fullPairs).any (w.pairCollides w.state)

/-- Minimum of a list of signed distances (`none` on an empty scope). -/
def listMin : List Int → Option Int
  | [] => none
  | a :: t =>
      match listMin t with
      | none => some a
      | some b => some (min a b)

/-- Minimum of two optional distances. -/
def optMin : Option Int → Option Int → Option Int
  | none, b => b
  | some a, none => some a
  | some a, some b => some (min a b)

/-- The per-pair signed distances of the self scope at the current state. -/
def PlanningWorld.selfDists (w : PlanningWorld) : List Int :=
  w.selfPairs.map (w.pairDistance w.state)

/-- The per-pair signed distances of the with-others scope. -/
def PlanningWorld.othersDists (w : PlanningWorld) : List Int :=
  w.othersPairs.map (w.pairDistance w.state)

/-- The per-pair signed distances of the full scope. -/
def PlanningWorld.fullDists (w : PlanningWorld) : List Int :=
  (w.fullPairs).map (w.pairDistance w.state)

/-- Modelled from the spec: `distance_self` returns the minimum signed
distance over the self scope. -/
def PlanningWorld.distanceSelf (w : PlanningWorld) : Option Int :=
  listMin w.selfDists

/-- Modelled from the spec: `distance_with_others` returns the minimum signed
distance over the with-others scope. -/
def PlanningWorld.distanceOthers (w : PlanningWorld) : Option Int :=
  listMin w.othersDists

/-- Modelled from the spec: `distance_full` returns the minimum signed
distance over the full scope. -/
def PlanningWorld.distanceFull (w : PlanningWorld) : Option Int :=
  listMin w.fullDists

/-- Modelled from the spec: the scalar `distance()` query is the full-scope
signed distance (negative = penetration depth). -/
def PlanningWorld.distance (w : PlanningWorld) : Option Int :=
  w.distanceFull

/-- `ValidityCheckerTpl::isValid` (OMPL planner header):
`world_->setQposAll(state2eigen(state_raw)); return !world_->collide();`.
The checker holds a shared pointer to the world, so the write is visible to
the caller: the mutated world is returned alongside the boolean. -/
def ValidityChecker.isValid (w : PlanningWorld) (state : List Int) :
    Bool × PlanningWorld :=
  let w1 := w.setQposAll state
  (!w1.collide, w1)

/-- `ValidityCheckerTpl::clearance`:
`world_->setQposAll(state2eigen(state_raw)); return world_->distance();`. -/
def ValidityChecker.clearance (w : PlanningWorld) (state : List Int) :
    Option Int × PlanningWorld :=
  let w1 := w.setQposAll state
  (w1.distance, w1)

/-! ## Concrete models used by witnesses -/

/-- Concrete articulated model used by witnesses: three joints with
configuration blocks `[0,2)`, `[2,3)`, `[3,6)`; move group `{0, 2}`, so the
reduced dimension is `2 + 3 = 5`; full configuration length 6. -/
def artEx : ArticulatedModel where
  jointId := fun i => [0, 2, 3].getD i 0
  jointDim := fun i => [2, 1, 3].getD i 0
  moveGroupUserJoints := [0, 2]
  qposDim := 5
  currentQpos := [1, 2, 3, 4, 5, 6]
  linkPoses := []

/-- Concrete KDL model used by witnesses: three user links; the chain to
`"ee"` has non-fixed joints `"j0"`, `"j1"` (user indices 0 and 1) separated
by a fixed joint. -/
def kdlEx : KDLModel where
  userLinkNames := ["base", "link1", "ee"]
  userJointIdxMapping := fun s => if s = "j0" then 0 else if s = "j1" then 1 else 2
  treeChain := fun l =>
    if l = "ee" then
      [{ jointName := "j0", fixedJoint := false },
       { jointName := "fix0", fixedJoint := true },
       { jointName := "j1", fixedJoint := false }]
    else [{ jointName := "j0", fixedJoint := false }]
  kdl2user := [0, 1]

/-- Concrete planning world used by witnesses: two self-scope pairs and one
with-others pair, with state-independent distances 5, -2, 3 and pair 1
colliding. -/
def worldEx : PlanningWorld where
  state := [0, 0]
  selfPairs := [0, 1]
  othersPairs := [2]
  pairCollides := fun _ p => p = 1
  pairDistance := fun _ p => [5, -2, 3].getD p 0

/-! ### List access lemmas -/

theorem getD_set_ne (l : List Int) (i k : Nat) (v : Int) (h : i ≠ k) :
    (l.set i v).getD k 0 = l.getD k 0 := by
  simp only [List.getD_eq_getElem?_getD]
  rw [List.getElem?_set_ne h]

theorem getD_set_self (l : List Int) (i : Nat) (v : Int) (h : i < l.length) :
    (l.set i v).getD i 0 = v := by
  simp only [List.getD_eq_getElem?_getD]
  rw [List.getElem?_set_eq_of_lt v h]
  rfl

/-! ### writeBlock lemmas -/

theorem writeBlock_length (d : Nat) : ∀ (start len : Nat) (q cur : List Int),
    (writeBlock start q len d cur).length = cur.length := by
  induction d with
  | zero => intro start len q cur; rfl
  | succ d ih =>
      intro start len q cur
      simp only [writeBlock, ih, List.length_set]

theorem writeBlock_getD_outside (d : Nat) :
    ∀ (start len k : Nat) (q cur : List Int), k < start ∨ start + d ≤ k →
    (writeBlock start q len d cur).getD k 0 = cur.getD k 0 := by
  induction d with
  | zero => intro start len k q cur _; rfl
  | succ d ih =>
      intro start len k q cur hk
      simp only [writeBlock]
      rw [ih (start + 1) (len + 1) k q _ (by omega)]
      exact getD_set_ne cur start k _ (by omega)

theorem writeBlock_getD_inside (d : Nat) :
    ∀ (start len j : Nat) (q cur : List Int), j < d → start + d ≤ cur.length →
    (writeBlock start q len d cur).getD (start + j) 0 = q.getD (len + j) 0 := by
  induction d with
  | zero => intro start len j q cur hj _; omega
  | succ d ih =>
      intro start len j q cur hj hb
      simp only [writeBlock]
      match j with
      | 0 =>
          rw [writeBlock_getD_outside d (start + 1) (len + 1) (start + 0) q _ (by omega)]
          simpa using getD_set_self cur start (q.getD len 0) (by omega)
      | Nat.succ j =>
          have h1 : start + (j + 1) = (start + 1) + j := by omega
          have h2 : len + (j + 1) = (len + 1) + j := by omega
          rw [h1, h2]
          exact ih (start + 1) (len + 1) j q _ (by omega) (by simp [List.length_set]; omega)

/-! ### scatterQpos lemmas -/

/-- Blocks of two joints are disjoint in the full configuration vector. -/
def BlocksDisjoint (jid jdim : Nat → Nat) (a b : Nat) : Prop :=
  jid a + jdim a ≤ jid b ∨ jid b + jdim b ≤ jid a

instance (jid jdim : Nat → Nat) (a b : Nat) : Decidable (BlocksDisjoint jid jdim a b) :=
  inferInstanceAs (Decidable (jid a + jdim a ≤ jid b ∨ jid b + jdim b ≤ jid a))

theorem scatterQpos_length (jid jdim : Nat → Nat) (mg : List Nat) :
    ∀ (q cur : List Int) (len : Nat),
    (scatterQpos jid jdim mg q len cur).length = cur.length := by
  induction mg with
  | nil => intro q cur len; rfl
  | cons i rest ih =>
      intro q cur len
      simp only [scatterQpos, ih, writeBlock_length]

theorem scatterQpos_getD_outside (jid jdim : Nat → Nat) (mg : List Nat) :
    ∀ (q cur : List Int) (len k : Nat),
    (∀ i ∈ mg, k < jid i ∨ jid i + jdim i ≤ k) →
    (scatterQpos jid jdim mg q len cur).getD k 0 = cur.getD k 0 := by
  induction mg with
  | nil => intro q cur len k _; rfl
  | cons i rest ih =>
      intro q cur len k hk
      simp only [scatterQpos]
      rw [ih q _ (len + jdim i) k (fun a ha => hk a (List.mem_cons_of_mem i ha))]
      exact writeBlock_getD_outside (jdim i) (jid i) len k q cur
        (hk i (List.mem_cons_self i rest))

theorem scatterQpos_getD_inside (jid jdim : Nat → Nat) (mg : List Nat) :
    ∀ (q cur : List Int) (len t : Nat) (ht : t < mg.length) (j : Nat),
    j < jdim (mg.get ⟨t, ht⟩) →
    List.Pairwise (BlocksDisjoint jid jdim) mg →
    (∀ i ∈ mg, jid i + jdim i ≤ cur.length) →
    (scatterQpos jid jdim mg q len cur).getD (jid (mg.get ⟨t, ht⟩) + j) 0
      = q.getD (len + ((mg.take t).map jdim).sum + j) 0 := by
  induction mg with
  | nil => intro q cur len t ht; exact absurd ht (by simp)
  | cons i rest ih =>
      intro q cur len t ht j hj hdisj hb
      match t with
      | 0 =>
          simp only [List.get] at hj ⊢
          simp only [scatterQpos, List.take, List.map_nil, List.sum_nil]
          have hhead : ∀ b ∈ rest, BlocksDisjoint jid jdim i b :=
            (List.pairwise_cons.mp hdisj).1
          rw [scatterQpos_getD_outside jid jdim rest q _ (len + jdim i) (jid i + j)
            (by
              intro b hb2
              rcases hhead b hb2 with h | h
              · left; omega
              · right; omega)]
          have := writeBlock_getD_inside (jdim i) (jid i) len j q cur hj
            (hb i (List.mem_cons_self i rest))
          simpa using this
      | Nat.succ t =>
          simp only [List.get] at hj ⊢
          simp only [scatterQpos]
          have hlen : ∀ a ∈ rest, jid a + jdim a ≤
              (writeBlock (jid i) q len (jdim i) cur).length := by
            intro a ha
            rw [writeBlock_length]
            exact hb a (List.mem_cons_of_mem i ha)
          have ht2 : t < rest.length := by
            simpa using ht
          rw [ih q _ (len + jdim i) t ht2 j hj (List.pairwise_cons.mp hdisj).2 hlen]
          congr 1
          simp only [List.take, List.map_cons, List.sum_cons]
          omega

/-! ### uniqueTail / uniqueAdjacent lemmas (std::sort + std::unique) -/

theorem mem_uniqueTail : ∀ (l : List Nat) (p : Nat),
    List.Pairwise (fun a b => a ≤ b) (p :: l) →
    ∀ x, x ∈ uniqueTail p l ↔ (x ∈ l ∧ x ≠ p) := by
  intro l
  induction l with
  | nil => intro p _ x; simp [uniqueTail]
  | cons b rest ih =>
      intro p hs x
      have hpb : p ≤ b := (List.pairwise_cons.mp hs).1 b (List.mem_cons_self b rest)
      have hprest : ∀ a ∈ rest, p ≤ a := fun a ha =>
        (List.pairwise_cons.mp hs).1 a (List.mem_cons_of_mem b ha)
      have hbrest : List.Pairwise (fun a b => a ≤ b) (b :: rest) :=
        (List.pairwise_cons.mp hs).2
      by_cases hpb2 : p = b
      · subst hpb2
        have hps : List.Pairwise (fun a b => a ≤ b) (p :: rest) :=
          List.pairwise_cons.mpr ⟨hprest, (List.pairwise_cons.mp hbrest).2⟩
        have hunf : uniqueTail p (p :: rest) = uniqueTail p rest := by
          simp [uniqueTail]
        rw [hunf, ih p hps x]
        simp only [List.mem_cons]
        tauto
      · have hlt : p < b := lt_of_le_of_ne hpb hpb2
        have hbr : ∀ a ∈ rest, b ≤ a := (List.pairwise_cons.mp hbrest).1
        simp only [uniqueTail, if_neg hpb2, List.mem_cons]
        rw [ih b hbrest x]
        constructor
        · rintro (rfl | ⟨hx, hne⟩)
          · exact ⟨Or.inl rfl, by omega⟩
          · exact ⟨Or.inr hx, by have := hbr x hx; omega⟩
        · rintro ⟨rfl | hx, hnp⟩
          · exact Or.inl rfl
          · by_cases hxb : x = b
            · exact Or.inl hxb
            · exact Or.inr ⟨hx, hxb⟩

theorem chain_uniqueTail : ∀ (l : List Nat) (p : Nat),
    List.Pairwise (fun a b => a ≤ b) (p :: l) →
    List.Chain (fun a b => a < b) p (uniqueTail p l) := by
  intro l
  induction l with
  | nil => intro p _; exact List.Chain.nil
  | cons b rest ih =>
      intro p hs
      have hpb : p ≤ b := (List.pairwise_cons.mp hs).1 b (List.mem_cons_self b rest)
      have hprest : ∀ a ∈ rest, p ≤ a := fun a ha =>
        (List.pairwise_cons.mp hs).1 a (List.mem_cons_of_mem b ha)
      have hbrest : List.Pairwise (fun a b => a ≤ b) (b :: rest) :=
        (List.pairwise_cons.mp hs).2
      by_cases hpb2 : p = b
      · subst hpb2
        have hps : List.Pairwise (fun a b => a ≤ b) (p :: rest) :=
          List.pairwise_cons.mpr ⟨hprest, (List.pairwise_cons.mp hbrest).2⟩
        have hunf : uniqueTail p (p :: rest) = uniqueTail p rest := by
          simp [uniqueTail]
        rw [hunf]
        exact ih p hps
      · simp only [uniqueTail, if_neg hpb2]
        exact List.Chain.cons (lt_of_le_of_ne hpb hpb2) (ih b hbrest)

theorem mem_uniqueAdjacent (l : List Nat)
    (hs : List.Pairwise (fun a b => a ≤ b) l) (x : Nat) :
    x ∈ uniqueAdjacent l ↔ x ∈ l := by
  cases l with
  | nil => simp [uniqueAdjacent]
  | cons a rest =>
      simp only [uniqueAdjacent, List.mem_cons]
      rw [mem_uniqueTail rest a hs x]
      constructor
      · rintro (rfl | ⟨h, _⟩)
        · exact Or.inl rfl
        · exact Or.inr h
      · rintro (rfl | h)
        · exact Or.inl rfl
        · by_cases hxa : x = a
          · exact Or.inl hxa
          · exact Or.inr ⟨h, hxa⟩

theorem chain_uniqueAdjacent (l : List Nat)
    (hs : List.Pairwise (fun a b => a ≤ b) l) :
    List.Chain' (fun a b => a < b) (uniqueAdjacent l) := by
  cases l with
  | nil => simp [uniqueAdjacent]
  | cons a rest => exact chain_uniqueTail rest a hs

theorem nodup_of_chain_lt (l : List Nat)
    (h : List.Chain' (fun a b => a < b) l) : l.Nodup := by
  have hp : List.Pairwise (fun a b => a < b) l := List.chain'_iff_pairwise.mp h
  exact hp.imp (fun hab => Nat.ne_of_lt hab)

theorem mem_foldl_chains (chain : String → List Nat) :
    ∀ (effs : List String) (acc : List Nat) (j : Nat),
    j ∈ effs.foldl (fun acc e => chain e ++ acc) acc ↔
      ((∃ e ∈ effs, j ∈ chain e) ∨ j ∈ acc) := by
  intro effs
  induction effs with
  | nil => intro acc j; simp
  | cons e rest ih =>
      intro acc j
      simp only [List.foldl_cons]
      rw [ih (chain e ++ acc) j]
      simp only [List.mem_append, List.mem_cons]
      constructor
      · rintro (⟨a, ha, hj⟩ | hj | hj)
        · exact Or.inl ⟨a, Or.inr ha, hj⟩
        · exact Or.inl ⟨e, Or.inl rfl, hj⟩
        · exact Or.inr hj
      · rintro (⟨a, rfl | ha, hj⟩ | hj)
        · exact Or.inr (Or.inl hj)
        · exact Or.inl ⟨a, ha, hj⟩
        · exact Or.inr (Or.inr hj)

/-! ### overwriteAt and listMin lemmas -/

theorem overwriteAt_getD_notMem : ∀ (idx : List Nat) (q0 sol : List Int) (k : Nat),
    k ∉ idx → (overwriteAt q0 idx sol).getD k 0 = q0.getD k 0 := by
  intro idx
  induction idx with
  | nil => intro q0 sol k _; cases sol <;> rfl
  | cons i rest ih =>
      intro q0 sol k hk
      cases sol with
      | nil => rfl
      | cons s ss =>
          simp only [overwriteAt]
          rw [ih (q0.set i s) ss k (fun hmem => hk (List.mem_cons_of_mem i hmem))]
          refine getD_set_ne q0 i k s (fun hik => hk ?_)
          rw [← hik]
          exact List.mem_cons_self i rest

theorem listMin_eq_none (l : List Int) : listMin l = none ↔ l = [] := by
  cases l with
  | nil => simp [listMin]
  | cons a t =>
      simp only [listMin]
      cases listMin t <;> simp

theorem listMin_append (l1 l2 : List Int) :
    listMin (l1 ++ l2) = optMin (listMin l1) (listMin l2) := by
  induction l1 with
  | nil => rfl
  | cons a t ih =>
      rw [List.cons_append]
      simp only [listMin]
      rw [ih]
      cases h1 : listMin t <;> cases h2 : listMin l2 <;>
        simp [optMin, min_assoc]

theorem listMin_spec : ∀ (l : List Int) (x : Int),
    listMin l = some x → x ∈ l ∧ ∀ d ∈ l, x ≤ d := by
  intro l
  induction l with
  | nil => intro x h; cases h
  | cons a t ih =>
      intro x h
      simp only [listMin] at h
      cases ht : listMin t with
      | none =>
          rw [ht] at h
          have hx : a = x := Option.some.inj h
          have htnil : t = [] := (listMin_eq_none t).mp ht
          subst htnil
          refine ⟨?_, ?_⟩
          · rw [← hx]
            exact List.mem_cons_self a []
          · intro d hd
            have hda : d = a := by
              rcases List.mem_cons.mp hd with h1 | h1
              · exact h1
              · cases h1
            rw [hda, ← hx]
      | some b =>
          rw [ht] at h
          have hx : min a b = x := Option.some.inj h
          obtain ⟨hbmem, hble⟩ := ih b ht
          subst hx
          constructor
          · rcases min_choice a b with hmin | hmin <;> rw [hmin]
            · exact List.mem_cons_self a t
            · exact List.mem_cons_of_mem a hbmem
          · intro d hd
            rcases List.mem_cons.mp hd with h1 | hdt
            · rw [h1]
              exact min_le_left a b
            · exact le_trans (min_le_right a b) (hble d hdt)

/-! ## Claim theorems about ArticulatedModel -/

/-- C3: `setMoveGroup` computes the move-group joint set as the union of the
joint indices on the kinematic path from the tree root to each named link
(`getChainJointIndex`), duplicates removed, indices in strictly ascending
order, and sets the reduced dimension `qpos_dim_` to the sum of the per-joint
DOF over exactly that set. -/
theorem setMoveGroup_spec (chainJointIndex : String → List Nat)
    (m : ArticulatedModel) (effs : List String) :
    (∀ j, j ∈ (m.setMoveGroup chainJointIndex effs).moveGroupUserJoints ↔
        ∃ e ∈ effs, j ∈ chainJointIndex e)
    ∧ List.Chain' (fun a b => a < b)
        (m.setMoveGroup chainJointIndex effs).moveGroupUserJoints
    ∧ (m.setMoveGroup chainJointIndex effs).qposDim =
        (m.setMoveGroup chainJointIndex effs).moveGroupUserJoints.toFinset.sum
          m.jointDim := by
  have hsorted : List.Pairwise (fun a b => a ≤ b)
      ((effs.foldl (fun acc e => chainJointIndex e ++ acc) []).insertionSort
        (fun a b => a ≤ b)) :=
    List.sorted_insertionSort (fun a b => a ≤ b) _
  have hmg : (m.setMoveGroup chainJointIndex effs).moveGroupUserJoints =
      uniqueAdjacent ((effs.foldl (fun acc e => chainJointIndex e ++ acc) []).insertionSort
        (fun a b => a ≤ b)) := rfl
  have hchain : List.Chain' (fun a b => a < b)
      (m.setMoveGroup chainJointIndex effs).moveGroupUserJoints := by
    rw [hmg]
    exact chain_uniqueAdjacent _ hsorted
  refine ⟨?_, hchain, ?_⟩
  · intro j
    rw [hmg, mem_uniqueAdjacent _ hsorted j,
      (List.perm_insertionSort (fun a b => a ≤ b) _).mem_iff,
      mem_foldl_chains chainJointIndex effs [] j]
    simp
  · have hnd : (m.setMoveGroup chainJointIndex effs).moveGroupUserJoints.Nodup :=
      nodup_of_chain_lt _ hchain
    rw [List.sum_toFinset m.jointDim hnd]
    rfl

/-- C1: for a reduced-dimension input of the right length, `setQpos(q, false)`
succeeds and scatters the entries of `q`, in order, into exactly the
configuration slots of the move-group joints — the `t`-th move-group joint
receives the contiguous block of `q` starting at the sum of the dims of the
earlier move-group joints — while every configuration entry outside the
move-group joints' slots keeps its previous value.  The hypotheses state the
pinocchio layout invariants: per-joint blocks are pairwise disjoint and lie
inside the stored configuration vector. -/
theorem setQpos_reduced_scatter (fk : List Int → List Int) (m : ArticulatedModel)
    (q : List Int) (hlen : q.length = m.qposDim)
    (hdisj : List.Pairwise (BlocksDisjoint m.jointId m.jointDim) m.moveGroupUserJoints)
    (hbound : ∀ i ∈ m.moveGroupUserJoints,
      m.jointId i + m.jointDim i ≤ m.currentQpos.length) :
    ∃ m1, m.setQpos fk q false = (none, m1) ∧
      (∀ (t : Nat) (ht : t < m.moveGroupUserJoints.length) (j : Nat),
        j < m.jointDim (m.moveGroupUserJoints.get ⟨t, ht⟩) →
        m1.currentQpos.getD (m.jointId (m.moveGroupUserJoints.get ⟨t, ht⟩) + j) 0
          = q.getD (((m.moveGroupUserJoints.take t).map m.jointDim).sum + j) 0) ∧
      (∀ k : Nat,
        (∀ i ∈ m.moveGroupUserJoints, k < m.jointId i ∨ m.jointId i + m.jointDim i ≤ k) →
        m1.currentQpos.getD k 0 = m.currentQpos.getD k 0) := by
  refine ⟨{ m with
      currentQpos := scatterQpos m.jointId m.jointDim m.moveGroupUserJoints q 0 m.currentQpos,
      linkPoses := fk (scatterQpos m.jointId m.jointDim m.moveGroupUserJoints q 0 m.currentQpos) },
    ?_, ?_, ?_⟩
  · simp [ArticulatedModel.setQpos, hlen]
  · intro t ht j hj
    have := scatterQpos_getD_inside m.jointId m.jointDim m.moveGroupUserJoints q
      m.currentQpos 0 t ht j hj hdisj hbound
    simpa using this
  · intro k hk
    exact scatterQpos_getD_outside m.jointId m.jointDim m.moveGroupUserJoints q
      m.currentQpos 0 k hk

/-- Witness for C1 at a concrete model and input. -/
theorem setQpos_reduced_scatter_witness :
    ([10, 11, 12, 13, 14] : List Int).length = artEx.qposDim
    ∧ (∃ m1, artEx.setQpos (fun l => l) [10, 11, 12, 13, 14] false = (none, m1) ∧
      (∀ (t : Nat) (ht : t < artEx.moveGroupUserJoints.length) (j : Nat),
        j < artEx.jointDim (artEx.moveGroupUserJoints.get ⟨t, ht⟩) →
        m1.currentQpos.getD (artEx.jointId (artEx.moveGroupUserJoints.get ⟨t, ht⟩) + j) 0
          = ([10, 11, 12, 13, 14] : List Int).getD
              (((artEx.moveGroupUserJoints.take t).map artEx.jointDim).sum + j) 0) ∧
      (∀ k : Nat,
        (∀ i ∈ artEx.moveGroupUserJoints,
          k < artEx.jointId i ∨ artEx.jointId i + artEx.jointDim i ≤ k) →
        m1.currentQpos.getD k 0 = artEx.currentQpos.getD k 0)) :=
  ⟨by decide,
    setQpos_reduced_scatter (fun l => l) artEx [10, 11, 12, 13, 14]
      (by decide) (by decide) (by decide)⟩

/-- C4: `setQpos(q, full=false)` followed by `setQpos(F, full=true)` with `F`
the full configuration held before the first call restores the stored full
configuration exactly; the first call raises no error for a valid reduced
input. -/
theorem setQpos_roundTrip (fk : List Int → List Int) (m : ArticulatedModel)
    (q : List Int) (hq : q.length = m.qposDim) :
    (m.setQpos fk q false).1 = none ∧
    ((((m.setQpos fk q false).2).setQpos fk m.currentQpos true).2).currentQpos
      = m.currentQpos := by
  constructor
  · simp [ArticulatedModel.setQpos, hq]
  · simp [ArticulatedModel.setQpos]

/-- Witness for C4 at a concrete model and input. -/
theorem setQpos_roundTrip_witness :
    ([10, 11, 12, 13, 14] : List Int).length = artEx.qposDim
    ∧ ((artEx.setQpos (fun l => l) [10, 11, 12, 13, 14] false).1 = none ∧
      ((((artEx.setQpos (fun l => l) [10, 11, 12, 13, 14] false).2).setQpos
        (fun l => l) artEx.currentQpos true).2).currentQpos = artEx.currentQpos) :=
  ⟨by decide, setQpos_roundTrip (fun l => l) artEx [10, 11, 12, 13, 14] (by decide)⟩

/-- C5: `setQpos(q, full=false)` raises the size-mismatch error exactly when
the input length differs from the move group's reduced dimension, and a
rejected call returns with the whole object state — stored configuration and
derived link poses — unchanged (the `ASSERT` fires before any mutation,
forward kinematics, or collision-object update). -/
theorem setQpos_size_mismatch (fk : List Int → List Int) (m : ArticulatedModel)
    (q : List Int) :
    (q.length ≠ m.qposDim →
      m.setQpos fk q false = (some (lengthError m.qposDim q.length), m)) ∧
    (q.length = m.qposDim → (m.setQpos fk q false).1 = none) := by
  constructor
  · intro h
    simp [ArticulatedModel.setQpos, h]
  · intro h
    simp [ArticulatedModel.setQpos, h]

/-- Witness for C5 at a concrete model and a wrong-length input. -/
theorem setQpos_size_mismatch_witness :
    (([1, 2] : List Int).length ≠ artEx.qposDim →
      artEx.setQpos (fun l => l) [1, 2] false
        = (some (lengthError artEx.qposDim ([1, 2] : List Int).length), artEx)) ∧
    (([1, 2] : List Int).length = artEx.qposDim →
      (artEx.setQpos (fun l => l) [1, 2] false).1 = none) :=
  setQpos_size_mismatch (fun l => l) artEx [1, 2]

/-- C8: `setQpos(q, full=true)` performs no length validation: for every
input, the call raises no error and the stored full configuration becomes
exactly the input (the derived poses are recomputed from it). -/
theorem setQpos_full_unchecked (fk : List Int → List Int) (m : ArticulatedModel)
    (q : List Int) :
    m.setQpos fk q true = (none, { m with currentQpos := q, linkPoses := fk q }) := by
  simp [ArticulatedModel.setQpos]

/-! ## Claim theorems about KDLModel -/

/-- C6: each chain IK operation and the tree IK operation return the
underlying KDL solver's status code unmodified as the second component of the
result, alongside the computed configuration; solver non-convergence is
reported through this status value, and no exception is raised for an
in-bounds link index. -/
theorem ik_status_passthrough (m : KDLModel)
    (lma nr : List Int → List Int → List Int × Int)
    (jl : List Int → List Int → List Int → List Int → List Int × Int)
    (tr : List Int → List Int → List Int → List (String × List Int) → List Int × Int)
    (index : Nat) (q0 pose qmin qmax : List Int)
    (endpoints : List String) (poses : List (List Int))
    (h : index < m.userLinkNames.length) :
    (∃ q1, m.chainIKLMA lma index q0 pose = Except.ok
      (q1, (lma (readAt q0 (chainJointIdx m (m.userLinkNames.getD index ""))) pose).2)) ∧
    (∃ q1, m.chainIKNR nr index q0 pose = Except.ok
      (q1, (nr (readAt q0 (chainJointIdx m (m.userLinkNames.getD index ""))) pose).2)) ∧
    (∃ q1, m.chainIKNRJL jl index q0 pose qmin qmax = Except.ok
      (q1, (jl (readAt qmin (chainJointIdx m (m.userLinkNames.getD index "")))
               (readAt qmax (chainJointIdx m (m.userLinkNames.getD index "")))
               (readAt q0 (chainJointIdx m (m.userLinkNames.getD index ""))) pose).2)) ∧
    (∃ q1, m.TreeIKNRJL tr endpoints q0 poses qmin qmax =
      (q1, (tr (readAt qmin m.kdl2user) (readAt qmax m.kdl2user)
               (readAt q0 m.kdl2user) (endpoints.zip poses)).2)) := by
  refine ⟨?_, ?_, ?_, ?_⟩
  · simp only [KDLModel.chainIKLMA]
    rw [if_pos h]
    exact ⟨_, rfl⟩
  · simp only [KDLModel.chainIKNR]
    rw [if_pos h]
    exact ⟨_, rfl⟩
  · simp only [KDLModel.chainIKNRJL]
    rw [if_pos h]
    exact ⟨_, rfl⟩
  · exact ⟨_, rfl⟩

/-- Witness for C6: a concrete model, in-bounds link index 2, and concrete
solvers with status codes 42, 43, 44, 45. -/
theorem ik_status_passthrough_witness :
    2 < kdlEx.userLinkNames.length ∧
    ((∃ q1, kdlEx.chainIKLMA (fun _ _ => ([100, 101], 42)) 2 [7, 8, 9] []
        = Except.ok (q1, 42)) ∧
     (∃ q1, kdlEx.chainIKNR (fun _ _ => ([100, 101], 43)) 2 [7, 8, 9] []
        = Except.ok (q1, 43)) ∧
     (∃ q1, kdlEx.chainIKNRJL (fun _ _ _ _ => ([100, 101], 44)) 2 [7, 8, 9] []
        [0, 0, 0] [9, 9, 9] = Except.ok (q1, 44)) ∧
     (∃ q1, kdlEx.TreeIKNRJL (fun _ _ _ _ => ([100, 101], 45)) ["ee"] [7, 8, 9]
        [[]] [0, 0, 0] [9, 9, 9] = (q1, 45))) :=
  ⟨by decide,
    ik_status_passthrough kdlEx (fun _ _ => ([100, 101], 42)) (fun _ _ => ([100, 101], 43))
      (fun _ _ _ _ => ([100, 101], 44)) (fun _ _ _ _ => ([100, 101], 45))
      2 [7, 8, 9] [] [0, 0, 0] [9, 9, 9] ["ee"] [[]] (by decide)⟩

/-- C9: the configuration returned by each chain IK method agrees with the
seed `q0` at every index that is not the user index of a non-fixed joint on
the chain from the tree root to the target link; only those chain entries may
differ. -/
theorem chainIK_offChain_unchanged (m : KDLModel)
    (lma nr : List Int → List Int → List Int × Int)
    (jl : List Int → List Int → List Int → List Int → List Int × Int)
    (index : Nat) (q0 pose qmin qmax : List Int) (k : Nat)
    (hk : k ∉ chainJointIdx m (m.userLinkNames.getD index "")) :
    (∀ q1 st, m.chainIKLMA lma index q0 pose = Except.ok (q1, st) →
      q1.getD k 0 = q0.getD k 0) ∧
    (∀ q1 st, m.chainIKNR nr index q0 pose = Except.ok (q1, st) →
      q1.getD k 0 = q0.getD k 0) ∧
    (∀ q1 st, m.chainIKNRJL jl index q0 pose qmin qmax = Except.ok (q1, st) →
      q1.getD k 0 = q0.getD k 0) := by
  by_cases h : index < m.userLinkNames.length
  · refine ⟨?_, ?_, ?_⟩
    · intro q1 st heq
      simp only [KDLModel.chainIKLMA] at heq
      rw [if_pos h] at heq
      simp only [Except.ok.injEq, Prod.mk.injEq] at heq
      rw [← heq.1]
      exact overwriteAt_getD_notMem _ q0 _ k hk
    · intro q1 st heq
      simp only [KDLModel.chainIKNR] at heq
      rw [if_pos h] at heq
      simp only [Except.ok.injEq, Prod.mk.injEq] at heq
      rw [← heq.1]
      exact overwriteAt_getD_notMem _ q0 _ k hk
    · intro q1 st heq
      simp only [KDLModel.chainIKNRJL] at heq
      rw [if_pos h] at heq
      simp only [Except.ok.injEq, Prod.mk.injEq] at heq
      rw [← heq.1]
      exact overwriteAt_getD_notMem _ q0 _ k hk
  · refine ⟨?_, ?_, ?_⟩
    · intro q1 st heq
      simp only [KDLModel.chainIKLMA] at heq
      rw [if_neg h] at heq
      exact Except.noConfusion heq
    · intro q1 st heq
      simp only [KDLModel.chainIKNR] at heq
      rw [if_neg h] at heq
      exact Except.noConfusion heq
    · intro q1 st heq
      simp only [KDLModel.chainIKNRJL] at heq
      rw [if_neg h] at heq
      exact Except.noConfusion heq

/-- Witness for C9: user joint index 2 is not on the chain to link `"ee"`
(whose non-fixed joints have user indices 0 and 1). -/
theorem chainIK_offChain_unchanged_witness :
    2 ∉ chainJointIdx kdlEx (kdlEx.userLinkNames.getD 2 "") ∧
    ((∀ q1 st, kdlEx.chainIKLMA (fun _ _ => ([100, 101], 0)) 2 [7, 8, 9] []
        = Except.ok (q1, st) → q1.getD 2 0 = ([7, 8, 9] : List Int).getD 2 0) ∧
     (∀ q1 st, kdlEx.chainIKNR (fun _ _ => ([100, 101], 0)) 2 [7, 8, 9] []
        = Except.ok (q1, st) → q1.getD 2 0 = ([7, 8, 9] : List Int).getD 2 0) ∧
     (∀ q1 st, kdlEx.chainIKNRJL (fun _ _ _ _ => ([100, 101], 0)) 2 [7, 8, 9] []
        [0, 0, 0] [9, 9, 9] = Except.ok (q1, st) →
        q1.getD 2 0 = ([7, 8, 9] : List Int).getD 2 0)) :=
  ⟨by decide,
    chainIK_offChain_unchanged kdlEx (fun _ _ => ([100, 101], 0))
      (fun _ _ => ([100, 101], 0)) (fun _ _ _ _ => ([100, 101], 0))
      2 [7, 8, 9] [] [0, 0, 0] [9, 9, 9] 2 (by decide)⟩

/-- C10: each chain IK method fails with the runtime error
`"link index out of bound"` exactly when the target link index is at least
the number of user link names — the error value depends on nothing but the
index check, so no solver is constructed and the seed is untouched — and for
every in-bounds index the call returns normally. -/
theorem chainIK_bounds (m : KDLModel)
    (lma nr : List Int → List Int → List Int × Int)
    (jl : List Int → List Int → List Int → List Int → List Int × Int)
    (index : Nat) (q0 pose qmin qmax : List Int) :
    (m.userLinkNames.length ≤ index →
      m.chainIKLMA lma index q0 pose = Except.error "link index out of bound" ∧
      m.chainIKNR nr index q0 pose = Except.error "link index out of bound" ∧
      m.chainIKNRJL jl index q0 pose qmin qmax
        = Except.error "link index out of bound") ∧
    (index < m.userLinkNames.length →
      (∃ out, m.chainIKLMA lma index q0 pose = Except.ok out) ∧
      (∃ out, m.chainIKNR nr index q0 pose = Except.ok out) ∧
      (∃ out, m.chainIKNRJL jl index q0 pose qmin qmax = Except.ok out)) := by
  constructor
  · intro h
    have hnot : ¬ index < m.userLinkNames.length := Nat.not_lt.mpr h
    refine ⟨?_, ?_, ?_⟩
    · simp only [KDLModel.chainIKLMA]
      rw [if_neg hnot]
    · simp only [KDLModel.chainIKNR]
      rw [if_neg hnot]
    · simp only [KDLModel.chainIKNRJL]
      rw [if_neg hnot]
  · intro h
    refine ⟨?_, ?_, ?_⟩
    · simp only [KDLModel.chainIKLMA]
      rw [if_pos h]
      exact ⟨_, rfl⟩
    · simp only [KDLModel.chainIKNR]
      rw [if_pos h]
      exact ⟨_, rfl⟩
    · simp only [KDLModel.chainIKNRJL]
      rw [if_pos h]
      exact ⟨_, rfl⟩

/-- Witness for C10 at the out-of-bounds index 5 on a model with 3 links. -/
theorem chainIK_bounds_witness :
    (kdlEx.userLinkNames.length ≤ 5 →
      kdlEx.chainIKLMA (fun _ _ => ([], 0)) 5 [7, 8, 9] []
        = Except.error "link index out of bound" ∧
      kdlEx.chainIKNR (fun _ _ => ([], 0)) 5 [7, 8, 9] []
        = Except.error "link index out of bound" ∧
      kdlEx.chainIKNRJL (fun _ _ _ _ => ([], 0)) 5 [7, 8, 9] [] [0, 0, 0] [9, 9, 9]
        = Except.error "link index out of bound") ∧
    (5 < kdlEx.userLinkNames.length →
      (∃ out, kdlEx.chainIKLMA (fun _ _ => ([], 0)) 5 [7, 8, 9] [] = Except.ok out) ∧
      (∃ out, kdlEx.chainIKNR (fun _ _ => ([], 0)) 5 [7, 8, 9] [] = Except.ok out) ∧
      (∃ out, kdlEx.chainIKNRJL (fun _ _ _ _ => ([], 0)) 5 [7, 8, 9] [] [0, 0, 0]
        [9, 9, 9] = Except.ok out)) :=
  chainIK_bounds kdlEx (fun _ _ => ([], 0)) (fun _ _ => ([], 0))
    (fun _ _ _ _ => ([], 0)) 5 [7, 8, 9] [] [0, 0, 0] [9, 9, 9]

/-! ## Claim theorems about PlanningWorld and ValidityChecker -/

/-- C2: a planner state is valid iff, after writing it into the world via
`setQposAll`, the world's full-scope boolean `collide` reports no collision;
and the clearance of a state is the world's full-scope signed distance
evaluated after the same write. -/
theorem isValid_iff_collide_free (w : PlanningWorld) (st : List Int) :
    ((ValidityChecker.isValid w st).1 = true ↔
      PlanningWorld.collide (w.setQposAll st) = false)
    ∧ (ValidityChecker.clearance w st).1
        = PlanningWorld.distance (w.setQposAll st) := by
  constructor
  · simp [ValidityChecker.isValid]
  · rfl

/-- C7: `distance_full` equals the minimum over the union of the
`distance_self` and `distance_with_others` results, and each distance-scope
query returns the minimum signed distance over all pairs in its scope (it is
attained by a pair of the scope and bounds every pair of the scope). -/
theorem distanceFull_min_union (w : PlanningWorld) :
    w.distanceFull = optMin w.distanceSelf w.distanceOthers
    ∧ (∀ x, w.distanceFull = some x → x ∈ w.fullDists ∧ ∀ d ∈ w.fullDists, x ≤ d)
    ∧ (∀ x, w.distanceSelf = some x → x ∈ w.selfDists ∧ ∀ d ∈ w.selfDists, x ≤ d)
    ∧ (∀ x, w.distanceOthers = some x →
        x ∈ w.othersDists ∧ ∀ d ∈ w.othersDists, x ≤ d) := by
  refine ⟨?_, fun x h => listMin_spec _ x h, fun x h => listMin_spec _ x h,
    fun x h => listMin_spec _ x h⟩
  have hsplit : w.fullDists = w.selfDists ++ w.othersDists := by
    simp [PlanningWorld.fullDists, PlanningWorld.fullPairs, PlanningWorld.selfDists,
      PlanningWorld.othersDists]
  rw [PlanningWorld.distanceFull, hsplit, listMin_append]
  rfl

/-- Witness for C7 at a concrete world. -/
theorem distanceFull_min_union_witness :
    worldEx.distanceFull = optMin worldEx.distanceSelf worldEx.distanceOthers
    ∧ (∀ x, worldEx.distanceFull = some x →
        x ∈ worldEx.fullDists ∧ ∀ d ∈ worldEx.fullDists, x ≤ d)
    ∧ (∀ x, worldEx.distanceSelf = some x →
        x ∈ worldEx.selfDists ∧ ∀ d ∈ worldEx.selfDists, x ≤ d)
    ∧ (∀ x, worldEx.distanceOthers = some x →
        x ∈ worldEx.othersDists ∧ ∀ d ∈ worldEx.othersDists, x ≤ d) :=
  distanceFull_min_union worldEx

end MPlib
